import Mathlib

/-!
Shallow embedding of the catalog reconciliation and batched synchronization
engine of the seller-apis repository (src/seller.py and src/market.py).

Python strings are modelled as Lean `String`s (lists of characters), Python
lists as Lean `List`s, Python dict records as Lean structures, Python
exceptions as `Option`/`Except` results, and in-place list mutation
(`offer_ids.remove`) as explicit state passing: functions that mutate an
argument return the mutated value alongside their result.  The clock read by
`market.create_stocks` (`datetime.datetime.utcnow()`) is passed in as an
explicit `date` argument.  Network responses consumed by the pagination loops
are modelled as an oracle `Nat → Page` giving the server's k-th response, and
the unbounded `while True` loops as fuel-indexed iteration.
-/

namespace SellerApis

/-- Model of Python `int(s)` on a string: optional sign followed by at least
one ASCII decimal digit; anything else raises (`none`). -/
def digitsToNat (ds : List Char) : Nat :=
  ds.foldl (fun a c => 10 * a + (c.toNat - 48)) 0

def parseDigits (ds : List Char) : Option Nat :=
  if ds ≠ [] ∧ ds.all Char.isDigit then some (digitsToNat ds) else none

def pyInt (s : String) : Option Int :=
  match s.data with
  | [] => none
  | c :: cs =>
    if c = '-' then (parseDigits cs).map (fun n => -(n : Int))
    else if c = '+' then (parseDigits cs).map (fun n => (n : Int))
    else (parseDigits (c :: cs)).map (fun n => (n : Int))

/-- Model of Python `s.split(sep)` on a one-character separator: the list of
(possibly empty) segments between occurrences of the separator. -/
def pySplit (sep : Char) : List Char → List (List Char)
  | [] => [[]]
  | c :: cs =>
    if c = sep then [] :: pySplit sep cs
    else
      match pySplit sep cs with
      | [] => [[c]]
      | seg :: rest => (c :: seg) :: rest

/-- `seller.price_conversion`: `re.sub("[^0-9]", "", price.split(".")[0])` —
take the text before the first `.`, then delete every non-digit character. -/
def price_conversion (price : String) : String :=
  String.mk (((pySplit '.' price.data).headD []).filter Char.isDigit)

/-- One feed record (`watch_remnants` row): the `Код` (sku), `Количество`
(quantity label) and `Цена` (price label) columns. -/
structure Watch where
  kod : String
  quantity : String
  price : String
deriving DecidableEq, Repr

/-- The quantity bucketing rule inside `create_stocks` (both files):
`">10" → 100`, `"1" → 0`, otherwise Python `int(...)` of the label. -/
def quantityNormalize (count : String) : Option Int :=
  if count = ">10" then some 100
  else if count = "1" then some 0
  else pyInt count

/-- One Ozon stock record: an `offer_id` sku and a `stock` count. -/
structure StockItem where
  offer_id : String
  stock : Int
deriving DecidableEq, Repr

/-- The feed-scanning loop of `seller.create_stocks`: for each watch whose sku
is in `offer_ids`, emit a stock record with the bucketed quantity and remove
the sku from `offer_ids` (Python `list.remove` = `List.erase`); an
unparseable quantity label raises (`none`).  Returns the emitted records
together with the mutated `offer_ids`. -/
def create_stocks_loop : List Watch → List String → Option (List StockItem × List String)
  | [], offer_ids => some ([], offer_ids)
  | w :: ws, offer_ids =>
    if w.kod ∈ offer_ids then
      match quantityNormalize w.quantity with
      | none => none
      | some st =>
        (create_stocks_loop ws (offer_ids.erase w.kod)).map
          (fun p => (⟨w.kod, st⟩ :: p.1, p.2))
    else create_stocks_loop ws offer_ids

/-- `seller.create_stocks`: scan the feed, then append a zero-stock record for
every sku left in `offer_ids`.  Returns `(stocks, mutated offer_ids)`. -/
def create_stocks (watch_remnants : List Watch) (offer_ids : List String) :
    Option (List StockItem × List String) :=
  (create_stocks_loop watch_remnants offer_ids).map
    (fun p => (p.1 ++ p.2.map (fun oid => ⟨oid, 0⟩), p.2))

/-- One Ozon price record as built by `seller.create_prices`. -/
structure SellerPrice where
  auto_action_enabled : String
  currency_code : String
  offer_id : String
  old_price : String
  price : String
deriving DecidableEq, Repr

/-- `seller.create_prices`: for each watch whose sku is in `offer_ids`, emit a
price record with `price_conversion` of the price label; `offer_ids` is not
mutated. -/
def create_prices : List Watch → List String → List SellerPrice
  | [], _ => []
  | w :: ws, offer_ids =>
    if w.kod ∈ offer_ids then
      ⟨"UNKNOWN", "RUB", w.kod, "0", price_conversion w.price⟩ :: create_prices ws offer_ids
    else create_prices ws offer_ids

/-- The reconciliation part of `seller.main`: `create_stocks` mutates
`offer_ids`, then `create_prices` is called on the same (now mutated) list. -/
def seller_main_reconcile (watch_remnants : List Watch) (offer_ids : List String) :
    Option (List StockItem × List SellerPrice) :=
  (create_stocks watch_remnants offer_ids).map
    (fun p => (p.1, create_prices watch_remnants p.2))

/-- One `items` element of a Yandex Market stock record:
a `count`, the constant type `"FIT"`, and the `updatedAt` date. -/
structure MarketStockEntry where
  count : Int
  type : String
  updatedAt : String
deriving DecidableEq, Repr

/-- One Yandex Market stock record:
a `sku`, a `warehouseId`, and a list of `items` entries. -/
structure MarketStockItem where
  sku : String
  warehouseId : Int
  items : List MarketStockEntry
deriving DecidableEq, Repr

/-- The feed-scanning loop of `market.create_stocks`: the same matching,
bucketing and `offer_ids.remove` as on the Ozon side, but each record carries
the warehouse and the date string taken from the clock at the start of the
call. -/
def market_create_stocks_loop (warehouse_id : Int) (date : String) :
    List Watch → List String → Option (List MarketStockItem × List String)
  | [], offer_ids => some ([], offer_ids)
  | w :: ws, offer_ids =>
    if w.kod ∈ offer_ids then
      match quantityNormalize w.quantity with
      | none => none
      | some st =>
        (market_create_stocks_loop warehouse_id date ws (offer_ids.erase w.kod)).map
          (fun p => (⟨w.kod, warehouse_id, [⟨st, "FIT", date⟩]⟩ :: p.1, p.2))
    else market_create_stocks_loop warehouse_id date ws offer_ids

/-- `market.create_stocks`: scan the feed, then append a zero-count record for
every sku left in `offer_ids`.  `date` models
`datetime.datetime.utcnow().replace(microsecond=0).isoformat() + "Z"`. -/
def market_create_stocks (watch_remnants : List Watch) (offer_ids : List String)
    (warehouse_id : Int) (date : String) :
    Option (List MarketStockItem × List String) :=
  (market_create_stocks_loop warehouse_id date watch_remnants offer_ids).map
    (fun p =>
      (p.1 ++ p.2.map (fun oid => ⟨oid, warehouse_id, [⟨0, "FIT", date⟩]⟩), p.2))

/-- One Yandex Market price record:
an `id` sku and a `price` with a `value` and the constant currency `"RUR"`. -/
structure MarketPrice where
  id : String
  value : Int
  currencyId : String
deriving DecidableEq, Repr

/-- `market.create_prices`: like the Ozon side but the price label goes
through `int(price_conversion(...))`, which raises on a digitless label. -/
def market_create_prices : List Watch → List String → Option (List MarketPrice)
  | [], _ => some []
  | w :: ws, offer_ids =>
    if w.kod ∈ offer_ids then
      match pyInt (price_conversion w.price) with
      | none => none
      | some v =>
        (market_create_prices ws offer_ids).map (fun ps => ⟨w.kod, v, "RUR"⟩ :: ps)
    else market_create_prices ws offer_ids

/-- `seller.divide`: `for i in range(0, len(lst), n): yield lst[i:i+n]` —
one chunk `lst[i:i+n]` per index in `range(0, len(lst), n)`, which for
`n > 0` has `⌈len(lst)/n⌉` elements. -/
def divide (lst : List α) (n : Nat) : List (List α) :=
  (List.range' 0 ((lst.length + n - 1) / n) n).map (fun i => (lst.drop i).take n)

/-- One item of an Ozon product-list page (`offer_id` is all that is read). -/
structure Product where
  offer_id : String
deriving DecidableEq, Repr

/-- One page of `seller.get_product_list`: `items`, `total`, `last_id`. -/
structure SellerPage where
  items : List Product
  total : Nat
  last_id : String
deriving DecidableEq, Repr

/-- The `while True` loop of `seller.get_offer_ids`, iterated with fuel over a
response oracle (the server's k-th response): extend `product_list` with the
page's items and stop when `total == len(product_list)`.  `none` means the
fuel ran out before the stop condition held. -/
def seller_enum_loop (oracle : Nat → SellerPage) :
    Nat → Nat → List Product → Option (List Product)
  | 0, _, _ => none
  | fuel + 1, k, acc =>
    if (oracle k).total = (acc ++ (oracle k).items).length
    then some (acc ++ (oracle k).items)
    else seller_enum_loop oracle fuel (k + 1) (acc ++ (oracle k).items)

/-- `seller.get_offer_ids` over a response oracle: run the pagination loop,
then project each product to its `offer_id`. -/
def seller_get_offer_ids (oracle : Nat → SellerPage) (fuel : Nat) :
    Option (List String) :=
  (seller_enum_loop oracle fuel 0 []).map (fun ps => ps.map Product.offer_id)

/-- `seller.get_offer_ids` terminates on a response sequence when some amount
of fuel suffices for the loop to reach its stop condition. -/
def SellerEnumTerminates (oracle : Nat → SellerPage) : Prop :=
  ∃ fuel, (seller_get_offer_ids oracle fuel).isSome

/-- One entry of a Yandex Market offer-mappings page (`offer.shopSku` is all
that is read). -/
structure MarketEntry where
  shopSku : String
deriving DecidableEq, Repr

/-- One page of `market.get_product_list`: `offerMappingEntries` and
`paging.nextPageToken` (an absent token is the empty string). -/
structure MarketPage where
  entries : List MarketEntry
  nextPageToken : String
deriving DecidableEq, Repr

/-- The `while True` loop of `market.get_offer_ids`: extend the list with the
page's entries and stop when the next-page token is falsy (empty). -/
def market_enum_loop (oracle : Nat → MarketPage) :
    Nat → Nat → List MarketEntry → Option (List MarketEntry)
  | 0, _, _ => none
  | fuel + 1, k, acc =>
    if (oracle k).nextPageToken = ""
    then some (acc ++ (oracle k).entries)
    else market_enum_loop oracle fuel (k + 1) (acc ++ (oracle k).entries)

/-- `market.get_offer_ids` over a response oracle. -/
def market_get_offer_ids (oracle : Nat → MarketPage) (fuel : Nat) :
    Option (List String) :=
  (market_enum_loop oracle fuel 0 []).map (fun es => es.map MarketEntry.shopSku)

/-- `market.get_offer_ids` terminates on a response sequence when some amount
of fuel suffices for the loop to reach its stop condition. -/
def MarketEnumTerminates (oracle : Nat → MarketPage) : Prop :=
  ∃ fuel, (market_get_offer_ids oracle fuel).isSome

/-- The products accumulated by the Ozon loop after consuming pages
`0, …, n-1`. -/
def sellerCum (oracle : Nat → SellerPage) : Nat → List Product
  | 0 => []
  | n + 1 => sellerCum oracle n ++ (oracle n).items

/-- The Ozon loop's stop condition holds at step `k`: the reported total of
page `k` equals the number of products accumulated through page `k`. -/
def sellerStop (oracle : Nat → SellerPage) (k : Nat) : Prop :=
  (oracle k).total = (sellerCum oracle (k + 1)).length

/-- The Market loop's stop condition holds at step `k`: page `k` carries an
empty next-page token. -/
def marketStop (oracle : Nat → MarketPage) (k : Nat) : Prop :=
  (oracle k).nextPageToken = ""

/-- Failures that can abort a marketplace pass (Python exceptions reaching
`main`'s `try`). -/
inductive PassErr where
  | marketplaceUnavailable
  | other
deriving DecidableEq, Repr

/-- Observable outcome of `market.main`: which passes ran and which exception
the single `try/except` caught. -/
structure MarketMainTrace where
  ranFBS : Bool
  ranDBS : Bool
  caught : Option PassErr
deriving DecidableEq, Repr

/-- Control flow of `market.main`: the FBS pass and the DBS pass run
sequentially inside one `try` block, whose `except` clauses catch any
exception.  The bodies of the two passes (network enumeration and dispatch)
are external; their outcomes enter as `Except` parameters. -/
def market_main_flow (fbs dbs : Except PassErr Unit) : MarketMainTrace :=
  match fbs with
  | .error e => ⟨true, false, some e⟩
  | .ok _ =>
    match dbs with
    | .error e => ⟨true, true, some e⟩
    | .ok _ => ⟨true, true, none⟩

/-- The price-label example of the spec, `"5'990.00 руб."` (the second
character is the apostrophe, code point 39). -/
def priceSample : String :=
  String.mk ['5', Char.ofNat 39, '9', '9', '0', '.', '0', '0', ' ', 'р', 'у', 'б', '.']

/-- A sku is matched by the feed when some feed record's `Код` equals it
(the exact-string membership test of `create_stocks`/`create_prices`). -/
def feedMatches (watch_remnants : List Watch) (sku : String) : Bool :=
  watch_remnants.any (fun w => sku == w.kod)

/-- The clock-independent part of a Yandex Market stock record: everything
but the `updatedAt` field. -/
def marketStockItemKey (it : MarketStockItem) : String × Int × List (Int × String) :=
  (it.sku, it.warehouseId, it.items.map (fun e => (e.count, e.type)))

/-- The per-record conversion from an Ozon stock record to the Yandex Market
shape, at a given warehouse and clock date. -/
def toMarketStockItem (warehouse_id : Int) (date : String) (si : StockItem) :
    MarketStockItem :=
  ⟨si.offer_id, warehouse_id, [⟨si.stock, "FIT", date⟩]⟩

/-- A malformed Ozon response sequence: every page reports total 5 but
carries two items, so the accumulated count (always even) never reaches the
total. -/
def badSellerOracle : Nat → SellerPage := fun _ => ⟨[⟨"x"⟩, ⟨"y"⟩], 5, "t"⟩

/-- A malformed Yandex Market response sequence: every page carries a
non-empty next-page token. -/
def badMarketOracle : Nat → MarketPage := fun _ => ⟨[⟨"x"⟩], "next"⟩

/-- A well-formed Ozon response sequence: the first page already accounts for
the reported total. -/
def goodSellerOracle : Nat → SellerPage := fun _ => ⟨[⟨"a"⟩], 1, ""⟩

/-- A well-formed Yandex Market response sequence: the first page carries an
empty next-page token. -/
def goodMarketOracle : Nat → MarketPage := fun _ => ⟨[⟨"a"⟩], ""⟩

/-! ### Helper lemmas -/

theorem pySplit_ne_nil (sep : Char) (cs : List Char) : pySplit sep cs ≠ [] := by
  induction cs with
  | nil => simp [pySplit]
  | cons c cs ih =>
    by_cases h : c = sep
    · simp [pySplit, h]
    · simp only [pySplit, if_neg h]
      cases hs : pySplit sep cs with
      | nil => simp
      | cons seg rest => simp

theorem pySplit_headD_eq_takeWhile (sep : Char) (cs : List Char) :
    (pySplit sep cs).headD [] = cs.takeWhile (fun c => c != sep) := by
  induction cs with
  | nil => rfl
  | cons c cs ih =>
    by_cases h : c = sep
    · simp [pySplit, h, List.takeWhile_cons]
    · simp only [pySplit, if_neg h]
      cases hs : pySplit sep cs with
      | nil => exact absurd hs (pySplit_ne_nil sep cs)
      | cons seg rest =>
        rw [hs] at ih
        simp only [List.headD_cons] at ih ⊢
        simp [List.takeWhile_cons, h, ih]

theorem price_conversion_eq (s : String) :
    price_conversion s =
      String.mk ((s.data.takeWhile (fun c => c != '.')).filter Char.isDigit) := by
  unfold price_conversion
  rw [pySplit_headD_eq_takeWhile]

theorem pyInt_digits (ds : List Char) (h1 : ds ≠ []) (h2 : ∀ c ∈ ds, c.isDigit) :
    pyInt (String.mk ds) = some (digitsToNat ds) := by
  cases ds with
  | nil => exact absurd rfl h1
  | cons c cs =>
    have hc : c.isDigit := h2 c (List.mem_cons_self c cs)
    have hminus : ¬(c = '-') := fun h => absurd (h ▸ hc) (by decide)
    have hplus : ¬(c = '+') := fun h => absurd (h ▸ hc) (by decide)
    simp only [pyInt, hminus, hplus, if_false, parseDigits, if_pos]
    rw [if_pos ⟨List.cons_ne_nil c cs, List.all_eq_true.mpr (fun x hx => h2 x hx)⟩]
    rfl

/-! ### Claims about the normalizers -/

/-- Claim C4: the quantity normalizer inside `create_stocks` maps the label
`">10"` to 100, the label `"1"` to 0, any other parseable base-10 numeric
label to its integer value (`"7"` to 7), and fails on an unparseable label
such as `"abc"`; every label other than the two sentinels goes through
Python `int`. -/
theorem C4_quantity_normalizer :
    quantityNormalize ">10" = some 100 ∧
    quantityNormalize "1" = some 0 ∧
    quantityNormalize "7" = some 7 ∧
    quantityNormalize "abc" = none ∧
    ∀ s : String, s ≠ ">10" → s ≠ "1" → quantityNormalize s = pyInt s := by
  refine ⟨by decide, by decide, by decide, by decide, fun s h1 h2 => ?_⟩
  simp [quantityNormalize, h1, h2]

/-- Witness for C4 at the concrete label `"42"`. -/
theorem C4_witness : quantityNormalize "42" = some 42 :=
  (C4_quantity_normalizer.2.2.2.2 "42" (by decide) (by decide)).trans (by decide)

/-- Counterexample to claim C5: on the digitless label `"руб."` the price
normalizer does not fail — it silently returns the empty string, and
`seller.create_prices` silently emits a price record whose price field is
that empty string. -/
theorem C5_counterexample :
    price_conversion "руб." = "" ∧
    create_prices [⟨"A", "1", "руб."⟩] ["A"] = [⟨"UNKNOWN", "RUB", "A", "0", ""⟩] := by
  exact ⟨by decide, by decide⟩

/-- Claim C5 as amended: on every price string in which no digit remains
after truncating at the first `.` and stripping non-digits,
`price_conversion` returns the empty string rather than failing, and
`seller.create_prices` silently embeds that empty string in its price
record; only `market.create_prices` fails on such a record, because it wraps
the result in Python `int`. -/
theorem C5_price_empty (s : String)
    (h : (s.data.takeWhile (fun c => c != '.')).filter Char.isDigit = []) :
    price_conversion s = "" ∧
    create_prices [⟨"A", "1", s⟩] ["A"] = [⟨"UNKNOWN", "RUB", "A", "0", ""⟩] ∧
    market_create_prices [⟨"A", "1", s⟩] ["A"] = none := by
  have hempty : price_conversion s = "" := by
    rw [price_conversion_eq, h]
  refine ⟨hempty, ?_, ?_⟩
  · simp [create_prices, hempty]
  · have hnone : pyInt (price_conversion s) = none := by
      rw [hempty]
      rfl
    simp [market_create_prices, hnone]

/-- Witness for the amended C5 at the concrete label `"руб."`. -/
theorem C5_witness :
    price_conversion "руб." = "" ∧
    market_create_prices [⟨"A", "1", "руб."⟩] ["A"] = none :=
  ⟨(C5_price_empty "руб." (by decide)).1, (C5_price_empty "руб." (by decide)).2.2⟩

/-- Claim C6: `price_conversion` computes, for every input string, the result
of truncating the string at the first literal `.` and stripping every
non-digit character; when digits remain, parsing that result as a base-10
integer yields their value; in particular `"5'990.00 руб."` yields 5990 and
`"1234"` yields 1234. -/
theorem C6_price_normalizer :
    (∀ s : String, price_conversion s =
      String.mk ((s.data.takeWhile (fun c => c != '.')).filter Char.isDigit)) ∧
    (∀ s : String,
      (s.data.takeWhile (fun c => c != '.')).filter Char.isDigit ≠ [] →
      pyInt (price_conversion s) =
        some ((digitsToNat ((s.data.takeWhile (fun c => c != '.')).filter Char.isDigit) : Int))) ∧
    price_conversion priceSample = "5990" ∧
    pyInt (price_conversion priceSample) = some 5990 ∧
    price_conversion "1234" = "1234" := by
  refine ⟨price_conversion_eq, fun s h => ?_, by decide, by decide, by decide⟩
  rw [price_conversion_eq]
  exact pyInt_digits _ h (fun c hc => (List.mem_filter.mp hc).2)

/-- Witness for C6 at the concrete label `"7.5 x"`. -/
theorem C6_witness : pyInt (price_conversion "7.5 x") = some 7 :=
  (C6_price_normalizer.2.1 "7.5 x" (by decide)).trans (by decide)

/-! ### Enumeration termination -/

theorem seller_bad_loop :
    ∀ (fuel k : Nat) (acc : List Product), acc.length % 2 = 0 →
      seller_enum_loop badSellerOracle fuel k acc = none := by
  intro fuel
  induction fuel with
  | zero => intro k acc _; rfl
  | succ fuel ih =>
    intro k acc hacc
    simp only [seller_enum_loop]
    rw [if_neg (by simp [badSellerOracle]; omega)]
    exact ih (k + 1) _ (by simp [badSellerOracle]; omega)

theorem market_bad_loop :
    ∀ (fuel k : Nat) (acc : List MarketEntry),
      market_enum_loop badMarketOracle fuel k acc = none := by
  intro fuel
  induction fuel with
  | zero => intro k acc; rfl
  | succ fuel ih =>
    intro k acc
    simp only [market_enum_loop]
    rw [if_neg (by simp [badMarketOracle])]
    exact ih (k + 1) _

/-- Counterexample to claim C2: the unbounded `while True` loops of both
`get_offer_ids` never terminate on malformed pagination metadata — an Ozon
response sequence whose reported total is never reached, and a Yandex Market
response sequence whose next-page token is never empty, exhaust any amount
of fuel. -/
theorem C2_counterexample :
    ¬ SellerEnumTerminates badSellerOracle ∧ ¬ MarketEnumTerminates badMarketOracle := by
  constructor
  · rintro ⟨fuel, hf⟩
    unfold seller_get_offer_ids at hf
    rw [seller_bad_loop fuel 0 [] rfl] at hf
    exact absurd hf (by simp)
  · rintro ⟨fuel, hf⟩
    unfold market_get_offer_ids at hf
    rw [market_bad_loop fuel 0 []] at hf
    exact absurd hf (by simp)

theorem seller_loop_stop_of_some (oracle : Nat → SellerPage) :
    ∀ (fuel k : Nat) (v : List Product),
      seller_enum_loop oracle fuel k (sellerCum oracle k) = some v →
      ∃ j, sellerStop oracle j := by
  intro fuel
  induction fuel with
  | zero => intro k v h; exact absurd h (by simp [seller_enum_loop])
  | succ fuel ih =>
    intro k v h
    simp only [seller_enum_loop] at h
    by_cases hstop : (oracle k).total = (sellerCum oracle k ++ (oracle k).items).length
    · exact ⟨k, hstop⟩
    · rw [if_neg hstop] at h
      exact ih (k + 1) v h

theorem seller_loop_some_of_stop (oracle : Nat → SellerPage) :
    ∀ (n j : Nat), sellerStop oracle (j + n) →
      (seller_enum_loop oracle (n + 1) j (sellerCum oracle j)).isSome = true := by
  intro n
  induction n with
  | zero =>
    intro j hstop
    have hstop' : (oracle j).total = (sellerCum oracle j ++ (oracle j).items).length := hstop
    simp only [seller_enum_loop]
    rw [if_pos hstop']
    rfl
  | succ n ih =>
    intro j hstop
    simp only [seller_enum_loop]
    by_cases h : (oracle j).total = (sellerCum oracle j ++ (oracle j).items).length
    · rw [if_pos h]; rfl
    · rw [if_neg h]
      have hstop' : sellerStop oracle (j + 1 + n) := by
        rw [show j + 1 + n = j + (n + 1) from by omega]
        exact hstop
      exact ih (j + 1) hstop'

theorem market_loop_stop_of_some (oracle : Nat → MarketPage) :
    ∀ (fuel k : Nat) (acc : List MarketEntry) (v : List MarketEntry),
      market_enum_loop oracle fuel k acc = some v → ∃ j, marketStop oracle j := by
  intro fuel
  induction fuel with
  | zero => intro k acc v h; exact absurd h (by simp [market_enum_loop])
  | succ fuel ih =>
    intro k acc v h
    simp only [market_enum_loop] at h
    by_cases hstop : (oracle k).nextPageToken = ""
    · exact ⟨k, hstop⟩
    · rw [if_neg hstop] at h
      exact ih (k + 1) _ v h

theorem market_loop_some_of_stop (oracle : Nat → MarketPage) :
    ∀ (n j : Nat) (acc : List MarketEntry), marketStop oracle (j + n) →
      (market_enum_loop oracle (n + 1) j acc).isSome = true := by
  intro n
  induction n with
  | zero =>
    intro j acc hstop
    have hstop' : (oracle j).nextPageToken = "" := hstop
    simp only [market_enum_loop]
    rw [if_pos hstop']
    rfl
  | succ n ih =>
    intro j acc hstop
    simp only [market_enum_loop]
    by_cases h : (oracle j).nextPageToken = ""
    · rw [if_pos h]; rfl
    · rw [if_neg h]
      have hstop' : marketStop oracle (j + 1 + n) := by
        rw [show j + 1 + n = j + (n + 1) from by omega]
        exact hstop
      exact ih (j + 1) _ hstop'

/-- Claim C2 as amended: neither `get_offer_ids` bounds the number of pages
fetched; each terminates exactly when its stop condition is eventually met by
the response sequence — the reported total equals the accumulated count at
some step (Ozon), or some page carries an empty next-page token (Yandex
Market) — and loops indefinitely otherwise. -/
theorem C2_enum_termination (oracleS : Nat → SellerPage) (oracleM : Nat → MarketPage) :
    (SellerEnumTerminates oracleS ↔ ∃ k, sellerStop oracleS k) ∧
    (MarketEnumTerminates oracleM ↔ ∃ k, marketStop oracleM k) := by
  constructor
  · constructor
    · rintro ⟨fuel, hf⟩
      unfold seller_get_offer_ids at hf
      cases hl : seller_enum_loop oracleS fuel 0 [] with
      | none => rw [hl] at hf; exact absurd hf (by simp)
      | some v => exact seller_loop_stop_of_some oracleS fuel 0 v hl
    · rintro ⟨k, hk⟩
      refine ⟨k + 1, ?_⟩
      unfold seller_get_offer_ids
      have hs : (seller_enum_loop oracleS (k + 1) 0 []).isSome = true :=
        seller_loop_some_of_stop oracleS k 0 (by rw [Nat.zero_add]; exact hk)
      cases hl : seller_enum_loop oracleS (k + 1) 0 [] with
      | none => rw [hl] at hs; exact absurd hs (by simp)
      | some v => rfl
  · constructor
    · rintro ⟨fuel, hf⟩
      unfold market_get_offer_ids at hf
      cases hl : market_enum_loop oracleM fuel 0 [] with
      | none => rw [hl] at hf; exact absurd hf (by simp)
      | some v => exact market_loop_stop_of_some oracleM fuel 0 [] v hl
    · rintro ⟨k, hk⟩
      refine ⟨k + 1, ?_⟩
      unfold market_get_offer_ids
      have hs : (market_enum_loop oracleM (k + 1) 0 []).isSome = true :=
        market_loop_some_of_stop oracleM k 0 [] (by rw [Nat.zero_add]; exact hk)
      cases hl : market_enum_loop oracleM (k + 1) 0 [] with
      | none => rw [hl] at hs; exact absurd hs (by simp)
      | some v => rfl

/-- Witness for the amended C2: on well-formed response sequences whose stop
condition holds at the first page, both enumerations terminate. -/
theorem C2_witness :
    SellerEnumTerminates goodSellerOracle ∧ MarketEnumTerminates goodMarketOracle :=
  ⟨(C2_enum_termination goodSellerOracle goodMarketOracle).1.mpr ⟨0, rfl⟩,
   (C2_enum_termination goodSellerOracle goodMarketOracle).2.mpr ⟨0, rfl⟩⟩

/-! ### Orchestrator pass isolation -/

/-- Counterexample to claim C3: in `market.main` both passes sit in one
`try` block, so a `MarketplaceUnavailable` failure during the FBS pass is
caught at the top level but the DBS pass never runs. -/
theorem C3_counterexample :
    (market_main_flow (Except.error PassErr.marketplaceUnavailable)
      (Except.ok ())).ranDBS = false := rfl

/-- Claim C3 as amended: `market.main` catches a pass failure at its top
level (so the program itself survives), but the two passes share a single
`try` block: the DBS pass runs iff the FBS pass succeeded, and an FBS
failure is caught while skipping DBS entirely. -/
theorem C3_single_try (fbs dbs : Except PassErr Unit) :
    ((market_main_flow fbs dbs).ranDBS = true ↔ fbs.isOk = true) ∧
    (∀ e, fbs = Except.error e →
      (market_main_flow fbs dbs).caught = some e ∧
      (market_main_flow fbs dbs).ranDBS = false) := by
  cases fbs with
  | error e =>
    refine ⟨Iff.rfl, ?_⟩
    rintro e' he
    obtain rfl := (Except.error.inj he)
    exact ⟨rfl, rfl⟩
  | ok u =>
    cases dbs with
    | error e => exact ⟨Iff.rfl, fun e' he => absurd he (by simp)⟩
    | ok v => exact ⟨Iff.rfl, fun e' he => absurd he (by simp)⟩

/-- Witness for the amended C3: with a failing FBS pass and a healthy DBS
pass, the failure is caught and DBS is skipped. -/
theorem C3_witness :
    (market_main_flow (Except.error PassErr.marketplaceUnavailable)
        (Except.ok ())).caught = some PassErr.marketplaceUnavailable ∧
    (market_main_flow (Except.error PassErr.marketplaceUnavailable)
        (Except.ok ())).ranDBS = false :=
  (C3_single_try (Except.error PassErr.marketplaceUnavailable) (Except.ok ())).2
    PassErr.marketplaceUnavailable rfl

/-! ### Chunking (`divide`) -/

theorem ceil_div_step (n L : Nat) (hn : 0 < n) (hL : 0 < L) :
    (L + n - 1) / n = ((L - n) + n - 1) / n + 1 := by
  rcases le_or_lt L n with h | h
  · have h1 : L - n = 0 := Nat.sub_eq_zero_of_le h
    have h2 : (0 + n - 1) / n = 0 := Nat.div_eq_of_lt (by omega)
    have h3 : L + n - 1 - n = L - 1 := by omega
    rw [h1, h2, Nat.div_eq (L + n - 1) n, if_pos ⟨hn, by omega⟩, h3,
      Nat.div_eq_of_lt (show L - 1 < n by omega)]
  · rw [Nat.div_eq (L + n - 1) n, if_pos ⟨hn, by omega⟩]
    have h2 : L + n - 1 - n = (L - n) + n - 1 := by omega
    rw [h2]

theorem range'_map_shift {β : Type _} (k : Nat) :
    ∀ (f : Nat → β) (s t : Nat),
      (List.range' s k t).map f = (List.range' 0 k t).map (fun i => f (s + i)) := by
  induction k with
  | zero => intro f s t; rfl
  | succ k ih =>
    intro f s t
    rw [List.range'_succ, List.range'_succ, List.map_cons, List.map_cons]
    simp only [Nat.zero_add]
    rw [ih f (s + t) t, ih (fun i => f (s + i)) t t]
    simp [Nat.add_assoc]

theorem divide_nil {α : Type _} (n : Nat) : divide ([] : List α) n = [] := by
  unfold divide
  have h : (List.length ([] : List α) + n - 1) / n = 0 := by
    cases n with
    | zero => simp
    | succ m => exact Nat.div_eq_of_lt (by simp)
  rw [h]
  rfl

theorem divide_cons_step {α : Type _} (l : List α) (n : Nat) (hn : 0 < n) (hl : l ≠ []) :
    divide l n = l.take n :: divide (l.drop n) n := by
  unfold divide
  rw [ceil_div_step n l.length hn (List.length_pos.mpr hl), List.range'_succ,
    List.map_cons, List.drop_zero, List.length_drop]
  congr 1
  rw [Nat.zero_add, range'_map_shift]
  congr 1
  funext i
  rw [List.drop_drop]

theorem divide_length {α : Type _} (l : List α) (n : Nat) :
    (divide l n).length = (l.length + n - 1) / n := by
  simp [divide]

theorem divide_chunk_le {α : Type _} (l : List α) (n : Nat) :
    ∀ c ∈ divide l n, c.length ≤ n := by
  intro c hc
  simp only [divide, List.mem_map] at hc
  obtain ⟨i, -, rfl⟩ := hc
  simp [List.length_take]

theorem divide_flatten_aux {α : Type _} (n : Nat) (hn : 0 < n) :
    ∀ (fuel : Nat) (l : List α), l.length ≤ fuel → (divide l n).flatten = l := by
  intro fuel
  induction fuel with
  | zero =>
    intro l hl
    rw [List.eq_nil_of_length_eq_zero (Nat.le_zero.mp hl), divide_nil]
    rfl
  | succ fuel ih =>
    intro l hl
    cases l with
    | nil => rw [divide_nil]; rfl
    | cons a as =>
      rw [divide_cons_step _ n hn (by simp), List.flatten_cons,
        ih ((a :: as).drop n) (by simp only [List.length_drop, List.length_cons] at hl ⊢; omega),
        List.take_append_drop]

theorem divide_dropLast_aux {α : Type _} (n : Nat) (hn : 0 < n) :
    ∀ (fuel : Nat) (l : List α), l.length ≤ fuel →
      ∀ c ∈ (divide l n).dropLast, c.length = n := by
  intro fuel
  induction fuel with
  | zero =>
    intro l hl c hc
    rw [List.eq_nil_of_length_eq_zero (Nat.le_zero.mp hl), divide_nil] at hc
    simp at hc
  | succ fuel ih =>
    intro l hl c hc
    cases l with
    | nil => rw [divide_nil] at hc; simp at hc
    | cons a as =>
      rw [divide_cons_step _ n hn (by simp)] at hc
      cases hrest : divide ((a :: as).drop n) n with
      | nil => rw [hrest] at hc; simp at hc
      | cons r rs =>
        rw [hrest, List.dropLast_cons₂] at hc
        rcases List.mem_cons.mp hc with rfl | hc'
        · have hdrop : (a :: as).drop n ≠ [] := by
            intro h0
            rw [h0, divide_nil] at hrest
            exact List.noConfusion hrest
          have hlen : n < (a :: as).length := by
            by_contra hle
            exact hdrop (List.drop_eq_nil_iff.mpr (by omega))
          simp only [List.length_take]
          omega
        · have := ih ((a :: as).drop n)
            (by simp only [List.length_drop, List.length_cons] at hl ⊢; omega) c
          rw [hrest] at this
          exact this hc'

theorem ceil_div_characterizes (L n : Nat) (hn : 0 < n) (m : Nat) :
    (L + n - 1) / n ≤ m ↔ L ≤ n * m := by
  rw [Nat.div_le_iff_le_mul_add_pred hn]
  omega

/-- Claim C7: for every list of length `L` and every ceiling `B > 0`,
`divide` yields exactly `⌈L/B⌉` chunks (the chunk count is `(L + B - 1) / B`,
the unique value `k` with `L ≤ B·m ↔ k ≤ m`), each of size exactly `B` except
possibly the last (every chunk is of size at most `B`), and concatenating the
chunks in order reproduces the original list exactly, so no record is split
across chunks. -/
theorem C7_divide {α : Type} (l : List α) (n : Nat) (hn : 0 < n) :
    (divide l n).length = (l.length + n - 1) / n ∧
    (∀ m : Nat, (divide l n).length ≤ m ↔ l.length ≤ n * m) ∧
    (∀ c ∈ (divide l n).dropLast, c.length = n) ∧
    (∀ c ∈ divide l n, c.length ≤ n) ∧
    (divide l n).flatten = l :=
  ⟨divide_length l n,
   fun m => (divide_length l n ▸ ceil_div_characterizes l.length n hn m),
   divide_dropLast_aux n hn l.length l le_rfl,
   divide_chunk_le l n,
   divide_flatten_aux n hn l.length l le_rfl⟩

/-! ### Reconciler lemmas -/

theorem feedMatches_nil (x : String) : feedMatches [] x = false := rfl

theorem feedMatches_cons (w : Watch) (ws : List Watch) (x : String) :
    feedMatches (w :: ws) x = ((x == w.kod) || feedMatches ws x) := by
  simp [feedMatches]

theorem feedMatches_iff (F : List Watch) (x : String) :
    feedMatches F x = true ↔ ∃ w ∈ F, w.kod = x := by
  unfold feedMatches
  rw [List.any_eq_true]
  constructor
  · rintro ⟨w, hw, hbeq⟩
    exact ⟨w, hw, (beq_iff_eq.mp hbeq).symm⟩
  · rintro ⟨w, hw, hk⟩
    exact ⟨w, hw, beq_iff_eq.mpr hk.symm⟩

/-- The skus left in `offer_ids` by the feed-scanning loop are exactly the
unmatched catalog skus, in catalog order. -/
theorem loop_remaining :
    ∀ (F : List Watch) (C : List String), C.Nodup →
      ∀ s r, create_stocks_loop F C = some (s, r) →
        r = C.filter (fun x => !feedMatches F x) := by
  intro F
  induction F with
  | nil =>
    intro C hC s r h
    simp only [create_stocks_loop, Option.some.injEq, Prod.mk.injEq] at h
    obtain ⟨-, hr⟩ := h
    subst hr
    have hall : ∀ x ∈ C, (!feedMatches [] x) = true := fun x _ => rfl
    exact (List.filter_eq_self.mpr hall).symm
  | cons w ws ih =>
    intro C hC s r h
    simp only [create_stocks_loop] at h
    by_cases hmem : w.kod ∈ C
    · rw [if_pos hmem] at h
      cases hq : quantityNormalize w.quantity with
      | none => rw [hq] at h; exact absurd h (by simp)
      | some st =>
        rw [hq] at h
        cases hrec : create_stocks_loop ws (C.erase w.kod) with
        | none => rw [hrec] at h; exact absurd h (by simp)
        | some p =>
          rw [hrec] at h
          simp only [Option.map_some', Option.some.injEq, Prod.mk.injEq] at h
          obtain ⟨-, hr⟩ := h
          subst hr
          rw [ih (C.erase w.kod) (hC.erase w.kod) p.1 p.2 (by rw [hrec]),
            hC.erase_eq_filter w.kod, List.filter_filter]
          apply List.filter_congr
          intro x _
          rw [feedMatches_cons, Bool.not_or]
          rcases Bool.eq_false_or_eq_true (x == w.kod) with hb | hb <;>
            rcases Bool.eq_false_or_eq_true (feedMatches ws x) with hm | hm <;>
              simp [hb, hm, bne]
    · rw [if_neg hmem] at h
      rw [ih C hC s r h]
      apply List.filter_congr
      intro x hx
      have hne : (x == w.kod) = false :=
        beq_eq_false_iff_ne.mpr (fun hxe => hmem (hxe ▸ hx))
      rw [feedMatches_cons, hne, Bool.false_or]

/-- The skus of the records emitted by the feed-scanning loop are a
permutation of the matched catalog skus. -/
theorem loop_emitted_perm :
    ∀ (F : List Watch) (C : List String), C.Nodup →
      ∀ s r, create_stocks_loop F C = some (s, r) →
        List.Perm (s.map StockItem.offer_id)
          (C.filter (fun x => feedMatches F x)) := by
  intro F
  induction F with
  | nil =>
    intro C hC s r h
    simp only [create_stocks_loop, Option.some.injEq, Prod.mk.injEq] at h
    obtain ⟨hs, -⟩ := h
    subst hs
    have : C.filter (fun x => feedMatches [] x) = [] :=
      List.filter_eq_nil_iff.mpr (fun a _ => by rw [feedMatches_nil]; exact Bool.false_ne_true)
    rw [this]
    rfl
  | cons w ws ih =>
    intro C hC s r h
    simp only [create_stocks_loop] at h
    by_cases hmem : w.kod ∈ C
    · rw [if_pos hmem] at h
      cases hq : quantityNormalize w.quantity with
      | none => rw [hq] at h; exact absurd h (by simp)
      | some st =>
        rw [hq] at h
        cases hrec : create_stocks_loop ws (C.erase w.kod) with
        | none => rw [hrec] at h; exact absurd h (by simp)
        | some p =>
          rw [hrec] at h
          simp only [Option.map_some', Option.some.injEq, Prod.mk.injEq] at h
          obtain ⟨hs, -⟩ := h
          subst hs
          simp only [List.map_cons]
          have ihp := ih (C.erase w.kod) (hC.erase w.kod) p.1 p.2 (by rw [hrec])
          have hperm : List.Perm (C.filter (fun x => feedMatches (w :: ws) x))
              ((w.kod :: C.erase w.kod).filter (fun x => feedMatches (w :: ws) x)) :=
            (List.perm_cons_erase hmem).filter _
          have hcons : (w.kod :: C.erase w.kod).filter (fun x => feedMatches (w :: ws) x)
              = w.kod :: (C.erase w.kod).filter (fun x => feedMatches ws x) := by
            rw [List.filter_cons, if_pos (by rw [feedMatches_cons]; simp)]
            congr 1
            apply List.filter_congr
            intro x hx
            have hne : (x == w.kod) = false :=
              beq_eq_false_iff_ne.mpr (hC.mem_erase_iff.mp hx).1
            rw [feedMatches_cons, hne, Bool.false_or]
          refine (List.Perm.cons w.kod ihp).trans ?_
          rw [← hcons]
          exact hperm.symm
    · rw [if_neg hmem] at h
      refine (ih C hC s r h).trans ?_
      have heq : C.filter (fun x => feedMatches ws x)
          = C.filter (fun x => feedMatches (w :: ws) x) := by
        apply List.filter_congr
        intro x hx
        have hne : (x == w.kod) = false :=
          beq_eq_false_iff_ne.mpr (fun he => hmem (he ▸ hx))
        rw [feedMatches_cons, hne, Bool.false_or]
      rw [heq]

/-- Every record emitted by the feed-scanning loop carries the bucketed
quantity of the first feed record bearing its sku. -/
theorem loop_values :
    ∀ (F : List Watch) (C : List String), C.Nodup →
      ∀ s r, create_stocks_loop F C = some (s, r) →
        ∀ it ∈ s, ∃ w, F.find? (fun v => v.kod == it.offer_id) = some w ∧
          quantityNormalize w.quantity = some it.stock := by
  intro F
  induction F with
  | nil =>
    intro C hC s r h it hit
    simp only [create_stocks_loop, Option.some.injEq, Prod.mk.injEq] at h
    obtain ⟨hs, -⟩ := h
    subst hs
    exact absurd hit (List.not_mem_nil it)
  | cons w ws ih =>
    intro C hC s r h it hit
    simp only [create_stocks_loop] at h
    by_cases hmem : w.kod ∈ C
    · rw [if_pos hmem] at h
      cases hq : quantityNormalize w.quantity with
      | none => rw [hq] at h; exact absurd h (by simp)
      | some st =>
        rw [hq] at h
        cases hrec : create_stocks_loop ws (C.erase w.kod) with
        | none => rw [hrec] at h; exact absurd h (by simp)
        | some p =>
          rw [hrec] at h
          simp only [Option.map_some', Option.some.injEq, Prod.mk.injEq] at h
          obtain ⟨hs, -⟩ := h
          subst hs
          rcases List.mem_cons.mp hit with rfl | hit'
          · exact ⟨w, List.find?_cons_of_pos ws (by simp), hq⟩
          · have hoid : it.offer_id ∈ C.erase w.kod := by
              have hperm := loop_emitted_perm ws (C.erase w.kod)
                (hC.erase w.kod) p.1 p.2 (by rw [hrec])
              exact (List.mem_filter.mp
                (hperm.mem_iff.mp (List.mem_map_of_mem StockItem.offer_id hit'))).1
            have hne : ¬ (w.kod == it.offer_id) = true := by
              rw [beq_iff_eq]
              exact fun he => (hC.mem_erase_iff.mp hoid).1 he.symm
            obtain ⟨v, hv, hqv⟩ :=
              ih (C.erase w.kod) (hC.erase w.kod) p.1 p.2 (by rw [hrec]) it hit'
            exact ⟨v, by rw [List.find?_cons_of_neg ws hne, hv], hqv⟩
    · rw [if_neg hmem] at h
      have hoid : it.offer_id ∈ C := by
        have hperm := loop_emitted_perm ws C hC s r h
        exact (List.mem_filter.mp
          (hperm.mem_iff.mp (List.mem_map_of_mem StockItem.offer_id hit))).1
      have hne : ¬ (w.kod == it.offer_id) = true := by
        rw [beq_iff_eq]
        exact fun he => hmem (by rw [he]; exact hoid)
      obtain ⟨v, hv, hqv⟩ := ih C hC s r h it hit
      exact ⟨v, by rw [List.find?_cons_of_neg ws hne, hv], hqv⟩

theorem create_stocks_eq (F : List Watch) (C : List String)
    (s : List StockItem) (r : List String) (h : create_stocks F C = some (s, r)) :
    ∃ s₀, create_stocks_loop F C = some (s₀, r) ∧
      s = s₀ ++ r.map (fun oid => ⟨oid, 0⟩) := by
  unfold create_stocks at h
  cases hrec : create_stocks_loop F C with
  | none => rw [hrec] at h; exact absurd h (by simp)
  | some p =>
    rw [hrec] at h
    simp only [Option.map_some', Option.some.injEq, Prod.mk.injEq] at h
    obtain ⟨hs, hr⟩ := h
    subst hr
    exact ⟨p.1, rfl, hs.symm⟩

theorem find?_eq_none_of_unmatched (F : List Watch) (x : String)
    (h : feedMatches F x = false) : F.find? (fun v => v.kod == x) = none := by
  rw [List.find?_eq_none]
  intro v hv hbeq
  have htrue : feedMatches F x = true :=
    (feedMatches_iff F x).mpr ⟨v, hv, beq_iff_eq.mp hbeq⟩
  rw [h] at htrue
  exact Bool.false_ne_true htrue

/-- The full list of stock records has skus forming a permutation of the
catalog. -/
theorem create_stocks_sku_perm (F : List Watch) (C : List String) (hC : C.Nodup)
    (s : List StockItem) (r : List String) (h : create_stocks F C = some (s, r)) :
    List.Perm (s.map StockItem.offer_id) C := by
  obtain ⟨s₀, hloop, rfl⟩ := create_stocks_eq F C s r h
  rw [List.map_append, List.map_map]
  have hid : (StockItem.offer_id ∘ fun oid => (⟨oid, 0⟩ : StockItem)) = id := rfl
  rw [hid, List.map_id]
  have h1 := loop_emitted_perm F C hC s₀ r hloop
  have h2 := loop_remaining F C hC s₀ r hloop
  rw [h2]
  exact (h1.append_right _).trans (List.filter_append_perm _ C)

/-- The market feed-scanning loop is the Ozon one with each record converted
to the Yandex Market shape. -/
theorem market_loop_eq (wh : Int) (d : String) :
    ∀ (F : List Watch) (C : List String),
      market_create_stocks_loop wh d F C =
        Option.map (fun p => (p.1.map (toMarketStockItem wh d), p.2))
          (create_stocks_loop F C) := by
  intro F
  induction F with
  | nil => intro C; rfl
  | cons w ws ih =>
    intro C
    simp only [market_create_stocks_loop, create_stocks_loop]
    by_cases hmem : w.kod ∈ C
    · rw [if_pos hmem, if_pos hmem]
      cases hq : quantityNormalize w.quantity with
      | none => rfl
      | some st =>
        rw [ih (C.erase w.kod)]
        cases create_stocks_loop ws (C.erase w.kod) with
        | none => rfl
        | some p => rfl
    · rw [if_neg hmem, if_neg hmem]
      exact ih C

/-- `market.create_stocks` is `seller.create_stocks` with every record
converted to the Yandex Market shape at the given warehouse and date. -/
theorem market_create_stocks_eq (F : List Watch) (C : List String)
    (wh : Int) (d : String) :
    market_create_stocks F C wh d =
      Option.map (fun p => (p.1.map (toMarketStockItem wh d), p.2))
        (create_stocks F C) := by
  unfold market_create_stocks create_stocks
  rw [market_loop_eq]
  cases create_stocks_loop F C with
  | none => rfl
  | some p =>
    simp only [Option.map_some', Option.some.injEq, Prod.mk.injEq]
    refine ⟨?_, trivial⟩
    rw [List.map_append, List.map_map]
    rfl

/-- Claim C1: for every feed record sequence `F` and every (duplicate-free)
catalog sku list `C`, a successful reconciliation pass emits exactly `|C|`
stock records — their skus are a permutation of `C`, hence one record per
catalog sku, no duplicates and none omitted; a sku matched by a feed record
carries that record's bucketed quantity, and every unmatched sku carries a
decommission count of 0; the Yandex Market variant emits the same records in
the market shape. -/
theorem C1_reconciliation (F : List Watch) (C : List String) (hC : C.Nodup)
    (s : List StockItem) (r : List String) (h : create_stocks F C = some (s, r)) :
    s.length = C.length ∧
    List.Perm (s.map StockItem.offer_id) C ∧
    (s.map StockItem.offer_id).Nodup ∧
    (∀ it ∈ s,
      (∀ w, F.find? (fun v => v.kod == it.offer_id) = some w →
        quantityNormalize w.quantity = some it.stock) ∧
      (F.find? (fun v => v.kod == it.offer_id) = none → it.stock = 0)) ∧
    (∀ (wh : Int) (d : String), market_create_stocks F C wh d =
      some (s.map (toMarketStockItem wh d), r)) := by
  have hperm := create_stocks_sku_perm F C hC s r h
  obtain ⟨s₀, hloop, hs⟩ := create_stocks_eq F C s r h
  refine ⟨by rw [← hperm.length_eq, List.length_map], hperm,
    hperm.nodup_iff.mpr hC, ?_, ?_⟩
  · intro it hit
    rw [hs] at hit
    rcases List.mem_append.mp hit with h₀ | h₁
    · obtain ⟨w₀, hw₀, hq₀⟩ := loop_values F C hC s₀ r hloop it h₀
      constructor
      · intro w hw
        rw [hw₀] at hw
        obtain rfl := Option.some.inj hw
        exact hq₀
      · intro hn
        rw [hw₀] at hn
        exact absurd hn (by simp)
    · obtain ⟨oid, hoid, rfl⟩ := List.mem_map.mp h₁
      have hun : feedMatches F oid = false := by
        rw [loop_remaining F C hC s₀ r hloop] at hoid
        have hb := (List.mem_filter.mp hoid).2
        rcases Bool.eq_false_or_eq_true (feedMatches F oid) with hf | hf
        · rw [hf] at hb
          exact absurd hb (by simp)
        · exact hf
      constructor
      · intro w hw
        rw [find?_eq_none_of_unmatched F oid hun] at hw
        exact absurd hw (by simp)
      · intro _
        rfl
  · intro wh d
    rw [market_create_stocks_eq, h]
    rfl

/-- Witness for C1: a two-sku catalog with a one-record feed yields one
matched record and one decommission record. -/
theorem C1_witness :
    create_stocks [⟨"A", "5", "100.00"⟩] ["A", "B"]
      = some ([⟨"A", 5⟩, ⟨"B", 0⟩], ["B"]) ∧
    ([⟨"A", (5 : Int)⟩, ⟨"B", 0⟩] : List StockItem).length
      = (["A", "B"] : List String).length := by
  refine ⟨by decide, ?_⟩
  exact (C1_reconciliation [⟨"A", "5", "100.00"⟩] ["A", "B"] (by decide)
    [⟨"A", 5⟩, ⟨"B", 0⟩] ["B"] (by decide)).1

/-- Claim C10: `create_stocks` removes from the caller's `offer_ids` exactly
the skus matched by a feed record, so after the call the (mutated) list holds
exactly the unmatched skus, and `seller.main`'s later `create_prices` call is
applied to that mutated list. -/
theorem C10_offer_ids_mutation (F : List Watch) (C : List String) (hC : C.Nodup)
    (s : List StockItem) (r : List String) (h : create_stocks F C = some (s, r)) :
    r = C.filter (fun x => !feedMatches F x) ∧
    (∀ x ∈ C, x ∈ r ↔ feedMatches F x = false) ∧
    seller_main_reconcile F C = some (s, create_prices F r) := by
  obtain ⟨s₀, hloop, hs⟩ := create_stocks_eq F C s r h
  have hr := loop_remaining F C hC s₀ r hloop
  refine ⟨hr, ?_, ?_⟩
  · intro x hx
    rw [hr]
    constructor
    · intro hmem
      have hb := (List.mem_filter.mp hmem).2
      rcases Bool.eq_false_or_eq_true (feedMatches F x) with hf | hf
      · rw [hf] at hb
        exact absurd hb (by simp)
      · exact hf
    · intro hf
      exact List.mem_filter.mpr ⟨hx, by rw [hf]; rfl⟩
  · unfold seller_main_reconcile
    rw [h]
    rfl

/-- Witness for C10: the matched sku `"A"` is removed, the unmatched `"B"`
remains, and the main-path price call sees only `["B"]`. -/
theorem C10_witness :
    (["B"] : List String) = (["A", "B"] : List String).filter
      (fun x => !feedMatches [⟨"A", "5", "100.00"⟩] x) ∧
    seller_main_reconcile [⟨"A", "5", "100.00"⟩] ["A", "B"]
      = some ([⟨"A", 5⟩, ⟨"B", 0⟩],
          create_prices [⟨"A", "5", "100.00"⟩] ["B"]) := by
  have h := C10_offer_ids_mutation [⟨"A", "5", "100.00"⟩] ["A", "B"] (by decide)
    [⟨"A", 5⟩, ⟨"B", 0⟩] ["B"] (by decide)
  exact ⟨h.1, h.2.2⟩

theorem create_prices_eq_nil (F : List Watch) (R : List String)
    (h : ∀ w ∈ F, w.kod ∉ R) : create_prices F R = [] := by
  induction F with
  | nil => rfl
  | cons w ws ih =>
    simp only [create_prices]
    rw [if_neg (h w (List.mem_cons_self w ws))]
    exact ih (fun v hv => h v (List.mem_cons_of_mem w hv))

theorem feedMatches_of_not_mem_kods (ws : List Watch) (x : String)
    (h : x ∉ ws.map Watch.kod) : feedMatches ws x = false := by
  cases hf : feedMatches ws x with
  | false => rfl
  | true =>
    obtain ⟨v, hv, hvk⟩ := (feedMatches_iff ws x).mp hf
    exact absurd (hvk ▸ List.mem_map_of_mem Watch.kod hv) h

/-- With no duplicate skus in the feed, `create_prices` emits one record per
matched catalog sku. -/
theorem create_prices_length (F : List Watch) (C : List String) (hC : C.Nodup)
    (hF : (F.map Watch.kod).Nodup) :
    (create_prices F C).length = (C.filter (fun x => feedMatches F x)).length := by
  induction F with
  | nil =>
    have hnil : C.filter (fun x => feedMatches [] x) = [] :=
      List.filter_eq_nil_iff.mpr
        (fun a _ => by rw [feedMatches_nil]; exact Bool.false_ne_true)
    rw [hnil]
    rfl
  | cons w ws ih =>
    obtain ⟨hw, hws⟩ := List.nodup_cons.mp hF
    simp only [create_prices]
    by_cases hmem : w.kod ∈ C
    · rw [if_pos hmem, List.length_cons, ih hws]
      have hp1 : (C.filter (fun x => feedMatches (w :: ws) x)).length
          = ((w.kod :: C.erase w.kod).filter
              (fun x => feedMatches (w :: ws) x)).length :=
        ((List.perm_cons_erase hmem).filter _).length_eq
      have hp2 : (C.filter (fun x => feedMatches ws x)).length
          = ((w.kod :: C.erase w.kod).filter (fun x => feedMatches ws x)).length :=
        ((List.perm_cons_erase hmem).filter _).length_eq
      have hcongr : (C.erase w.kod).filter (fun x => feedMatches (w :: ws) x)
          = (C.erase w.kod).filter (fun x => feedMatches ws x) := by
        apply List.filter_congr
        intro x hx
        have hne : (x == w.kod) = false :=
          beq_eq_false_iff_ne.mpr (hC.mem_erase_iff.mp hx).1
        rw [feedMatches_cons, hne, Bool.false_or]
      rw [hp1, hp2, List.filter_cons, List.filter_cons,
        if_neg (by rw [feedMatches_of_not_mem_kods ws w.kod hw]; exact Bool.false_ne_true),
        if_pos (by rw [feedMatches_cons]; simp),
        hcongr, List.length_cons]
    · rw [if_neg hmem, ih hws]
      congr 1
      apply List.filter_congr
      intro x hx
      have hne : (x == w.kod) = false :=
        beq_eq_false_iff_ne.mpr (fun he => hmem (he ▸ hx))
      rw [feedMatches_cons, hne, Bool.false_or]

/-- Counterexample to claim C8: on the seller `main` path, with catalog
`["A"]` and a feed matching `"A"`, every catalog sku is matched by the feed,
yet zero price records are produced against one stock record — the claimed
equality fails. -/
theorem C8_counterexample :
    seller_main_reconcile [⟨"A", "5", "100.00"⟩] ["A"] = some ([⟨"A", 5⟩], []) ∧
    (∀ x ∈ (["A"] : List String), feedMatches [⟨"A", "5", "100.00"⟩] x = true) ∧
    ([] : List SellerPrice).length ≠ ([⟨"A", (5 : Int)⟩] : List StockItem).length := by
  exact ⟨by decide, by decide, by decide⟩

/-- Claim C8 as amended: when `create_prices` runs on a fresh copy of the
catalog (as `upload_prices` does) and the feed has no duplicate skus, the
number of price records is at most the number of stock records, with equality
iff every catalog sku is matched; but on `seller.main`'s path `create_prices`
receives the list `create_stocks` has mutated — which holds only unmatched
skus — and therefore emits no price records at all. -/
theorem C8_price_stock_counts (F : List Watch) (C : List String) (hC : C.Nodup)
    (s : List StockItem) (r : List String) (h : create_stocks F C = some (s, r)) :
    create_prices F r = [] ∧
    ((F.map Watch.kod).Nodup →
      (create_prices F C).length ≤ s.length ∧
      ((create_prices F C).length = s.length ↔
        ∀ x ∈ C, feedMatches F x = true)) := by
  obtain ⟨s₀, hloop, hs⟩ := create_stocks_eq F C s r h
  have hr := loop_remaining F C hC s₀ r hloop
  have hslen : s.length = C.length := by
    have hperm := create_stocks_sku_perm F C hC s r h
    rw [← hperm.length_eq, List.length_map]
  constructor
  · apply create_prices_eq_nil
    intro w hw hwr
    rw [hr] at hwr
    have hb := (List.mem_filter.mp hwr).2
    have ht : feedMatches F w.kod = true := (feedMatches_iff F w.kod).mpr ⟨w, hw, rfl⟩
    rw [ht] at hb
    exact absurd hb (by simp)
  · intro hF
    rw [create_prices_length F C hC hF, hslen]
    refine ⟨List.length_filter_le _ C, ?_, ?_⟩
    · intro hlen x hx
      exact List.filter_eq_self.mp ((List.filter_sublist C).eq_of_length hlen) x hx
    · intro hall
      rw [List.filter_eq_self.mpr hall]

/-- Witness for the amended C8: a fresh two-sku catalog gives one price and
two stock records; the mutated list gives none. -/
theorem C8_witness :
    create_prices [⟨"A", "5", "100.00"⟩] ["B"] = [] ∧
    (create_prices [⟨"A", "5", "100.00"⟩] ["A", "B"]).length ≤ 2 := by
  have h := C8_price_stock_counts [⟨"A", "5", "100.00"⟩] ["A", "B"] (by decide)
    [⟨"A", 5⟩, ⟨"B", 0⟩] ["B"] (by decide)
  exact ⟨h.1, (h.2 (by decide)).1⟩

/-- Witness for C7 on a concrete five-element list with ceiling 2. -/
theorem C7_witness :
    divide [10, 20, 30, 40, 50] 2 = [[10, 20], [30, 40], [50]] ∧
    (divide [10, 20, 30, 40, 50] 2).length = 3 ∧
    (divide ([10, 20, 30, 40, 50] : List Nat) 2).flatten = [10, 20, 30, 40, 50] := by
  refine ⟨by decide, ?_, ?_⟩
  · exact (C7_divide ([10, 20, 30, 40, 50] : List Nat) 2 (by decide)).1.trans (by decide)
  · exact (C7_divide ([10, 20, 30, 40, 50] : List Nat) 2 (by decide)).2.2.2.2

/-! ### Determinism of reconciliation -/

/-- Counterexample to claim C9: with identical feed and catalog, two runs of
`market.create_stocks` at different clock readings produce different update
sequences (the `updatedAt` fields differ). -/
theorem C9_counterexample :
    market_create_stocks [] ["A"] 0 "2022-12-29T18:02:01Z" ≠
      market_create_stocks [] ["A"] 0 "2022-12-30T00:00:00Z" := by
  decide

/-- Claim C9 as amended: reconciliation is a pure function of the feed, the
catalog, the warehouse and (for Yandex Market) the clock reading:
`market.create_stocks` is `seller.create_stocks` mapped into the market
shape, two runs at any two clock readings agree on everything except the
`updatedAt` field, and runs at equal readings are identical. -/
theorem C9_determinism (F : List Watch) (C : List String) (wh : Int)
    (d₁ d₂ : String) :
    market_create_stocks F C wh d₁ =
      Option.map (fun p => (p.1.map (toMarketStockItem wh d₁), p.2))
        (create_stocks F C) ∧
    Option.map (fun p => (p.1.map marketStockItemKey, p.2))
        (market_create_stocks F C wh d₁)
      = Option.map (fun p => (p.1.map marketStockItemKey, p.2))
          (market_create_stocks F C wh d₂) ∧
    (d₁ = d₂ → market_create_stocks F C wh d₁ = market_create_stocks F C wh d₂) := by
  refine ⟨market_create_stocks_eq F C wh d₁, ?_, fun hd => by rw [hd]⟩
  rw [market_create_stocks_eq F C wh d₁, market_create_stocks_eq F C wh d₂]
  cases create_stocks F C with
  | none => rfl
  | some p =>
    simp only [Option.map_some']
    rw [List.map_map, List.map_map]
    rfl

/-- Witness for the amended C9 at a concrete feed, catalog and date. -/
theorem C9_witness :
    market_create_stocks [⟨"A", "3", "10"⟩] ["A"] 7 "2022-12-29T18:02:01Z" =
      market_create_stocks [⟨"A", "3", "10"⟩] ["A"] 7 "2022-12-29T18:02:01Z" :=
  (C9_determinism [⟨"A", "3", "10"⟩] ["A"] 7 "2022-12-29T18:02:01Z"
    "2022-12-29T18:02:01Z").2.2 rfl

end SellerApis
